import Mathlib

/-!
Verification of the key-chord representation and parser
(`qutebrowser/keyinput/keyutils.py`).

The development shallowly embeds the module: Qt key codes and modifier
flags become `Nat` constants, Python strings become `String`/`List Char`,
the lazy tokenizer generator becomes a structural state machine, and the
opaque platform ("native chord") operations that the module delegates to
are modelled from the specification's description of them.  Fallible
operations return `Option`/`Except`: `none` models a failing `assert`
(an `AssertionError` escaping the module), `Except.error` models a raised
`KeyParseError`.
-/

namespace Keyutils

/-! ## Qt constants (Qt::KeyboardModifier and Qt::Key values) -/

def shiftMod : Nat := 0x02000000
def controlMod : Nat := 0x04000000
def altMod : Nat := 0x08000000
def metaMod : Nat := 0x10000000
def keypadMod : Nat := 0x20000000
def groupSwitchMod : Nat := 0x40000000

/-- The modifier mask used by `KeySequence.__iter__`:
Shift|Control|Alt|Meta|Keypad|GroupSwitch. -/
def modifierMask : Nat :=
  shiftMod ||| controlMod ||| altMod ||| metaMod ||| keypadMod ||| groupSwitchMod

def keySpace : Nat := 0x20
def keyEscape : Nat := 0x01000000
def keyTab : Nat := 0x01000001
def keyBacktab : Nat := 0x01000002
def keyBackspace : Nat := 0x01000003
def keyReturn : Nat := 0x01000004
def keyEnter : Nat := 0x01000005
def keyShift : Nat := 0x01000020
def keyControl : Nat := 0x01000021
def keyMeta : Nat := 0x01000022
def keyAlt : Nat := 0x01000023
def keyModeSwitch : Nat := 0x0100117e
def keyUnknown : Nat := 0x01ffffff

/-- `_MODIFIER_MAP`: maps the Qt::Key of each modifier key to its
Qt::KeyboardModifier bit. -/
def modifierMap : List (Nat × Nat) :=
  [(keyShift, shiftMod),
   (keyControl, controlMod),
   (keyAlt, altMod),
   (keyMeta, metaMod),
   (keyModeSwitch, groupSwitchMod)]

/-! ## Python string primitives -/

/-- Python `str.lower`, exact on ASCII: `Char.toLower` maps only the
ASCII letters, whereas Python also lowercases non-ASCII cased
characters.  The module feeds it only platform glyphs and key names;
no theorem below evaluates it at a non-ASCII input. -/
def pyLower (s : String) : String := ⟨s.data.map Char.toLower⟩

/-- Python `str.upper`, exact on ASCII (same caveat as `pyLower`). -/
def pyUpper (s : String) : String := ⟨s.data.map Char.toUpper⟩

/-- Python `str.isupper`: at least one cased character and no cased
character is lowercase.  Exact on ASCII text, where cased means
alphabetic; beyond ASCII Python consults the Unicode character
database, which this embedding does not model, so theorems about the
`isupper`-dependent Shift-drop rule restrict the produced text to
ASCII. -/
def pyIsUpper (s : String) : Bool :=
  s.data.any (fun c => c.isAlpha) && s.data.all (fun c => !c.isLower)

/-- Scanner for `pyReplace`: when `skip = n+1` the current character was
consumed by an earlier pattern occurrence and is dropped; at `skip = 0`
a fresh occurrence of `pat` is looked for. -/
def replaceAux (pat repl : List Char) : Nat → List Char → List Char
  | _, [] => []
  | n+1, _ :: cs => replaceAux pat repl n cs
  | 0, c :: cs =>
      if pat ≠ [] ∧ pat.isPrefixOf (c :: cs) then
        repl ++ replaceAux pat repl (pat.length - 1) cs
      else
        c :: replaceAux pat repl 0 cs

/-- Python `str.replace`: replace non-overlapping occurrences of `pat`
left to right (callers in the module always pass a nonempty `pat`). -/
def pyReplace (s pat repl : String) : String :=
  ⟨replaceAux pat.data repl.data 0 s.data⟩

/-! ## Keystring tokenizer -/

/-- `_parse_single_key`: prepend `Shift+` when the character is
uppercase. -/
def parseSingleKey (s : String) : String :=
  if pyIsUpper s then "Shift+" ++ s else s

/-- `_parse_special_key`: lowercase, apply the fixed textual
replacements, then turn `mod-` into `mod+` for each modifier name. -/
def parseSpecialKey (s : String) : String :=
  let lowered := pyLower s
  let replaced :=
    [("control", "ctrl"), ("windows", "meta"), ("mod1", "alt"),
     ("mod4", "meta"), ("less", "<"), ("greater", ">")].foldl
      (fun acc p => pyReplace acc p.1 p.2) lowered
  ["ctrl", "meta", "alt", "shift"].foldl
    (fun acc m => pyReplace acc (m ++ "-") (m ++ "+")) replaced

/-- `_parse_keystring`, as a state machine over the remaining characters,
the accumulation buffer `key` and the `special` flag.  `none` models the
`assert not key` on a literal `>` firing (an `AssertionError` out of the
generator). -/
def tokenizeAux : List Char → List Char → Bool → Option (List String)
  | [], key, special =>
      if special then
        some ("<" :: key.map (fun c => parseSingleKey (String.singleton c)))
      else some []
  | c :: cs, key, special =>
      if c = '>' then
        if special then
          (tokenizeAux cs [] false).map (fun ts => parseSpecialKey ⟨key⟩ :: ts)
        else if key = [] then
          (tokenizeAux cs key special).map (fun ts => ">" :: ts)
        else none
      else if c = '<' then tokenizeAux cs key true
      else if special then tokenizeAux cs (key ++ [c]) special
      else
        (tokenizeAux cs key special).map
          (fun ts => parseSingleKey (String.singleton c) :: ts)

/-- Full run of `_parse_keystring` from the initial state. -/
def tokenize (s : String) : Option (List String) := tokenizeAux s.data [] false

/-! ## The platform's native chord capability

The module stores keys in `QKeySequence` objects.  The spec treats these
as an opaque capability with construct-from-string,
construct-from-key-list, intra-object three-way prefix match, and
string rendering; each is modelled below from the spec's description of
it.  A chord ("chunk") is a list of combined `key ||| modifiers`
integers. -/

/-- Modelled from the spec: the platform's single-key stringification
(`QKeySequence(key).toString()`), used as the fallback of
`_key_to_string` and to resolve printable glyphs.  Named special keys
use the platform name table; a one-byte key renders as its (uppercased)
character. -/
def qtKeyNames : List (Nat × String) :=
  [(keySpace, "Space"), (keyEscape, "Esc"), (keyTab, "Tab"),
   (keyBacktab, "Backtab"), (keyBackspace, "Backspace"),
   (keyReturn, "Return"), (keyEnter, "Enter")]

/-- Modelled from the spec: platform single-key rendering. -/
def qtKeyToString (k : Nat) : String :=
  match qtKeyNames.lookup k with
  | some s => s
  | none =>
      if k ≤ 0xff && k ≠ 0 then String.singleton (Char.toUpper (Char.ofNat k))
      else ""

/-- Modelled from the spec: the platform's modifier-to-string facility
(`QKeySequence(modifiers).toString()`); renders each held modifier
followed by `+`, in the platform's fixed Meta, Ctrl, Alt, Shift, Num
order. -/
def qtModifiersToString (mods : Nat) : String :=
  (if mods &&& metaMod ≠ 0 then "Meta+" else "") ++
  (if mods &&& controlMod ≠ 0 then "Ctrl+" else "") ++
  (if mods &&& altMod ≠ 0 then "Alt+" else "") ++
  (if mods &&& shiftMod ≠ 0 then "Shift+" else "") ++
  (if mods &&& keypadMod ≠ 0 then "Num+" else "")

/-- Modelled from the spec: the key-name table of the platform's
chord-string parser, lowercased. -/
def qtNamesFrom : List (String × Nat) :=
  [("space", keySpace), ("esc", keyEscape), ("escape", keyEscape),
   ("tab", keyTab), ("backtab", keyBacktab), ("backspace", keyBackspace),
   ("return", keyReturn), ("enter", keyEnter)]

/-- Modelled from the spec: strip leading modifier names (`ctrl+`,
`shift+`, `alt+`, `meta+`, `num+`) from an already-lowercased chord
part, accumulating their bits; fuelled by the input length. -/
def qtStripMods : Nat → List Char → Nat → (Nat × List Char)
  | 0, cs, mods => (mods, cs)
  | fuel+1, cs, mods =>
      if "ctrl+".data.isPrefixOf cs then
        qtStripMods fuel (cs.drop 5) (mods ||| controlMod)
      else if "shift+".data.isPrefixOf cs then
        qtStripMods fuel (cs.drop 6) (mods ||| shiftMod)
      else if "alt+".data.isPrefixOf cs then
        qtStripMods fuel (cs.drop 4) (mods ||| altMod)
      else if "meta+".data.isPrefixOf cs then
        qtStripMods fuel (cs.drop 5) (mods ||| metaMod)
      else if "num+".data.isPrefixOf cs then
        qtStripMods fuel (cs.drop 4) (mods ||| keypadMod)
      else (mods, cs)

/-- Modelled from the spec: resolve the base key of a chord part: a
single character is its (uppercased) character code, otherwise the name
table decides; anything unknown yields the platform's unknown-key
sentinel. -/
def qtBaseKey (cs : List Char) : Nat :=
  match cs with
  | [c] => (Char.toUpper c).toNat
  | _ =>
      match qtNamesFrom.lookup ⟨cs⟩ with
      | some k => k
      | none => keyUnknown

/-- Modelled from the spec: parse one chord part (such as
`ctrl+shift+x`) into a combined `key ||| modifiers` integer;
case-insensitive. -/
def qtParsePart (s : String) : Nat :=
  let lowered := s.data.map Char.toLower
  let sm := qtStripMods lowered.length lowered 0
  qtBaseKey sm.2 ||| sm.1

/-- Modelled from the spec: split a chord string at each `, `
separator. -/
def qtSplitChord : List Char → List Char → List (List Char)
  | [], acc => [acc.reverse]
  | [c], acc => [(c :: acc).reverse]
  | c :: c2 :: rest, acc =>
      if c = ',' ∧ c2 = ' ' then acc.reverse :: qtSplitChord rest []
      else qtSplitChord (c2 :: rest) (c :: acc)

/-- Modelled from the spec: the platform's chord-string constructor
(`QKeySequence(str)`): the empty string yields an empty chord, otherwise
each `, `-separated part is parsed into one combined integer. -/
def qtFromString (s : String) : List Nat :=
  match s.data with
  | [] => []
  | cs => (qtSplitChord cs []).map (fun p => qtParsePart ⟨p⟩)

/-- The three-way match verdict (`QKeySequence::SequenceMatch`). -/
inductive MatchResult where
  | NoMatch
  | PartialMatch
  | ExactMatch
deriving DecidableEq, Repr

/-- Modelled from the spec: the platform's intra-chunk three-way prefix
match (`QKeySequence.matches`): longer-than-configured or any differing
aligned key is no match; otherwise exact when the lengths agree and
partial when the entered chunk is shorter. -/
def qtChunkMatches (entered configured : List Nat) : MatchResult :=
  if entered.length > configured.length then .NoMatch
  else if (entered.zip configured).all (fun p => p.1 == p.2) then
    (if entered.length = configured.length then .ExactMatch else .PartialMatch)
  else .NoMatch

/-! ## KeyParseError, key classification and naming -/

/-- `KeyParseError`: the offending keystring (when known) and a
human-readable cause. -/
structure KeyParseError where
  keystr : Option String
  error : String
deriving DecidableEq, Repr

/-- `is_printable`: one byte, not space, not nil. -/
def isPrintable (key : Nat) : Bool :=
  key ≤ 0xff && !(key == keySpace || key == 0)

/-- `is_modifier_key`: membership in `_MODIFIER_MAP`. -/
def isModifierKey (key : Nat) : Bool :=
  (modifierMap.lookup key).isSome

/-- The modifier bit of a modifier key (`_MODIFIER_MAP[key]`). -/
def modifierOf (key : Nat) : Nat :=
  (modifierMap.lookup key).getD 0

/-- The `special_names` override table of `_key_to_string`, keyed by Qt
key code.  As in the source, entries whose symbol is absent from the key
enumeration at hand are simply omitted; the `nil` sentinel for code 0 is
always present. -/
def specialNames : List (Nat × String) :=
  [(0x01000053, "Super L"), (0x01000054, "Super R"),
   (0x01000056, "Hyper L"), (0x01000057, "Hyper R"),
   (0x01000059, "Direction L"), (0x01000060, "Direction R"),
   (keyShift, "Shift"), (keyControl, "Control"),
   (keyMeta, "Meta"), (keyAlt, "Alt"),
   (0x01001103, "AltGr"), (0x01001120, "Multi key"),
   (keyModeSwitch, "Mode switch"),
   (0x01001250, "`"), (0x01001251, "´"), (0x01001252, "^"),
   (0x01001253, "~"), (0x01001254, "¯"), (0x01001255, "˘"),
   (0x01001256, "˙"), (0x01001257, "¨"), (0x01001258, "˚"),
   (0x01001259, "˝"), (0x0100125a, "ˇ"), (0x0100125b, "¸"),
   (0x0100125c, "˛"), (0x0100125d, "Iota"), (0x0100125e, "Voiced Sound"),
   (0x0100125f, "Semivoiced Sound"), (0x01001260, "Belowdot"),
   (0x01001261, "Hook"), (0x01001262, "Horn"),
   (0x0100ffff, "Media Last"),
   (keyUnknown, "Unknown"),
   (keyEscape, "Escape"),
   (0x0, "nil")]

/-- `_key_to_string`: override table first, then the platform's native
single-key stringification. -/
def keyToString (key : Nat) : String :=
  match specialNames.lookup key with
  | some s => s
  | none => qtKeyToString key

/-! ## KeyInfo -/

/-- `KeyInfo`: one key press with its modifier set. -/
structure KeyInfo where
  key : Nat
  modifiers : Nat
deriving DecidableEq, Repr

/-- `KeyInfo.__str__`.  `none` models the `ValueError` for an empty
printable glyph and the one-character assertion on it.  Clearing a bit
set `m` from `mods` (Python `mods & ~m`) is written `mods ^^^ (mods &&& m)`. -/
def KeyInfo.str (info : KeyInfo) : Option String :=
  let keyString := keyToString info.key
  if isModifierKey info.key then
    let mods := info.modifiers ^^^ (info.modifiers &&& modifierOf info.key)
    some ("<" ++ qtModifiersToString mods ++ keyString ++ ">")
  else if isPrintable info.key then
    if keyString = "" then none
    else if keyString.length ≠ 1 then none
    else if info.modifiers = shiftMod then some (pyUpper keyString)
    else if info.modifiers = 0 then some (pyLower keyString)
    else some ("<" ++ qtModifiersToString info.modifiers ++ pyLower keyString ++ ">")
  else some ("<" ++ qtModifiersToString info.modifiers ++ keyString ++ ">")

/-- `KeySequence.__iter__`'s decomposition of one stored combined
integer into a `KeyInfo` via the modifier mask. -/
def splitKeyInfo (k : Nat) : KeyInfo :=
  ⟨k ^^^ (k &&& modifierMask), k &&& modifierMask⟩

/-! ## KeySequence -/

/-- `KeySequence`: the chunked storage — a list of native chords, each
holding at most `_MAX_LEN = 4` combined key integers. -/
structure KeySequence where
  sequences : List (List Nat)
deriving DecidableEq, Repr

/-- Modelled from the spec: `utils.chunk` — split a list into
consecutive groups, each of at most `n` elements (accumulator `acc`
holds the current group reversed, `k` its remaining capacity). -/
def chunkAcc (n : Nat) : List α → List α → Nat → List (List α)
  | [], [], _ => []
  | [], acc, _ => [acc.reverse]
  | x :: xs, acc, 0 => acc.reverse :: chunkAcc n xs [x] (n - 1)
  | x :: xs, acc, k+1 => chunkAcc n xs (x :: acc) k

/-- Modelled from the spec: chunk a list into groups of at most `n`. -/
def chunkList (n : Nat) (l : List α) : List (List α) :=
  chunkAcc n l [] n

/-- Outcome of `KeySequence._validate`: a failing `assert`, a raised
`KeyParseError`, or success. -/
inductive VRes where
  | assertFail
  | parseErr (e : KeyParseError)
  | ok
deriving DecidableEq, Repr

/-- The per-key loop of `_validate`: each key must lie in
`[Key_Space, Key_unknown]` (assertion) and must not be the unknown-key
sentinel (`KeyParseError`). -/
def checkInfoList (keystr : Option String) : List Nat → VRes
  | [] => .ok
  | k :: ks =>
      let key := (splitKeyInfo k).key
      if ¬(keySpace ≤ key ∧ key ≤ keyUnknown) then .assertFail
      else if key = keyUnknown then .parseErr ⟨keystr, "Got unknown key!"⟩
      else checkInfoList keystr ks

/-- `KeySequence._validate`: check every contained key, then assert that
every stored chord is nonempty. -/
def validateSeqs (seqs : List (List Nat)) (keystr : Option String) : VRes :=
  match checkInfoList keystr seqs.flatten with
  | .ok => if seqs.all (fun s => !s.isEmpty) then .ok else .assertFail
  | r => r

/-- `KeySequence.__init__(*keys)`: chunk the combined integers into
native chords of at most 4 keys, assert truthiness when keys were given,
and validate. -/
def KeySequence.init (keys : List Nat) : Option (Except KeyParseError KeySequence) :=
  let seqs := chunkList 4 keys
  if keys ≠ [] ∧ seqs = [] then none
  else
    match validateSeqs seqs none with
    | .assertFail => none
    | .parseErr e => some (.error e)
    | .ok => some (.ok ⟨seqs⟩)

/-- The flattened key list (`_iter_keys`). -/
def KeySequence.flatKeys (s : KeySequence) : List Nat := s.sequences.flatten

/-- Option-threaded concatenation of the renderings of a list of stored
combined integers. -/
def strJoinKeys : List Nat → Option String
  | [] => some ""
  | k :: ks =>
      match (splitKeyInfo k).str, strJoinKeys ks with
      | some a, some b => some (a ++ b)
      | _, _ => none

/-- `KeySequence.__str__`: concatenate the rendering of every contained
`KeyInfo`. -/
def KeySequence.toStr (s : KeySequence) : Option String :=
  strJoinKeys s.flatKeys

/-- Python `', '.join`. -/
def joinCS : List String → String
  | [] => ""
  | [s] => s
  | s :: rest => s ++ ", " ++ joinCS rest

/-- `KeySequence.parse`: tokenize, chunk the tokens into groups of at
most 4, hand each group's `, `-joined string to the platform's
chord-string constructor, assert truthiness for nonempty input, and
validate. -/
def parse (keystr : String) : Option (Except KeyParseError KeySequence) :=
  match tokenize keystr with
  | none => none
  | some strings =>
      let seqs := (chunkList 4 strings).map (fun sub => qtFromString (joinCS sub))
      if keystr ≠ "" ∧ seqs = [] then none
      else
        match validateSeqs seqs (some keystr) with
        | .assertFail => none
        | .parseErr e => some (.error e)
        | .ok => some (.ok ⟨seqs⟩)

/-- A live key-press event as the module consumes it: key code,
modifier bitset, produced text. -/
structure KeyEvent where
  key : Nat
  modifiers : Nat
  text : String
deriving DecidableEq, Repr

/-- `KeySequence.append_event`: nil key raises, Shift+Backtab is
rewritten to Tab, a Shift-only modifier on a printable key whose text is
not uppercase is dropped, and the extended flattened key list is
re-chunked through `__init__`. -/
def KeySequence.appendEvent (s : KeySequence) (ev : KeyEvent) :
    Option (Except KeyParseError KeySequence) :=
  if ev.key = 0 then some (.error ⟨none, "Got nil key!"⟩)
  else
    let key := if ev.modifiers &&& shiftMod ≠ 0 ∧ ev.key = keyBacktab then keyTab
               else ev.key
    let modifiers :=
      if ev.modifiers = shiftMod ∧ isPrintable ev.key ∧ ¬(pyIsUpper ev.text) then 0
      else ev.modifiers
    KeySequence.init (s.flatKeys ++ [key ||| modifiers])

/-- The chunk loop of `KeySequence.matches`: the first per-chunk result
that is not an exact match. -/
def firstNonExact : List (List Nat × List Nat) → Option MatchResult
  | [] => none
  | p :: rest =>
      let m := qtChunkMatches p.1 p.2
      if m ≠ .ExactMatch then some m else firstNonExact rest

/-- `KeySequence.matches`: guard on more entered chunks than configured,
short-circuit on the first non-exact aligned chunk, then decide by chunk
counts.  `none` models the `utils.Unreachable` branch. -/
def KeySequence.matchesQ (self other : KeySequence) : Option MatchResult :=
  if self.sequences.length > other.sequences.length then some .NoMatch
  else
    match firstNonExact (self.sequences.zip other.sequences) with
    | some m => some m
    | none =>
        if self.sequences.length = other.sequences.length then some .ExactMatch
        else if self.sequences.length < other.sequences.length then some .PartialMatch
        else none

/-- Modelled from the spec: the whole-sequence match exactly as the
specification words it — `NoMatch` when the entered sequence has
strictly more chunks; otherwise the first aligned per-chunk result that
is not `ExactMatch`; otherwise `ExactMatch` on equal chunk counts and
`PartialMatch` when fewer chunks were entered. -/
def matchesSpecification (E C : KeySequence) : MatchResult :=
  if E.sequences.length > C.sequences.length then .NoMatch
  else
    match ((E.sequences.zip C.sequences).map
            (fun p => qtChunkMatches p.1 p.2)).find?
            (fun m => decide (m ≠ .ExactMatch)) with
    | some m => m
    | none =>
        if E.sequences.length = C.sequences.length then .ExactMatch
        else .PartialMatch

/-! ## Benign keys for the round-trip property

The round-trip `parse(str(s))` is analysed through the rendering of
each stored combined integer.  A key is benign when its rendering is a
single self-delimiting token (one non-angle-bracket character, or a
`<...>` bracket with a clean body) that the chord parser maps back to
exactly the same combined integer.  Letters with or without Shift,
bare digits and most bare symbols, Ctrl/Alt/Meta chords on letters and
the named special keys are benign; `<Shift+1>` (which renders as `1`)
and the angle-bracket glyphs are not. -/

/-- Rendering of one stored combined integer
(`__iter__` followed by `KeyInfo.__str__`). -/
def renderKey (k : Nat) : Option String := (splitKeyInfo k).str

/-- Total form of `renderKey`. -/
def renderStrOf (k : Nat) : String := (renderKey k).getD ""

/-- Recognize `body ++ ['>']` where the body contains no angle
bracket, returning the body. -/
def bracketBody : List Char → Option (List Char)
  | [] => none
  | c :: cs =>
      if c = '>' then (if cs = [] then some [] else none)
      else if c = '<' then none
      else (bracketBody cs).map (fun b => c :: b)

/-- The single token which the tokenizer emits for one rendered key,
when that rendering is self-delimiting. -/
def tokenOfKey (k : Nat) : Option String :=
  match renderKey k with
  | none => none
  | some str =>
      match str.data with
      | [c] =>
          if c = '<' ∨ c = '>' then none
          else some (parseSingleKey (String.singleton c))
      | '<' :: rest => (bracketBody rest).map (fun body => parseSpecialKey ⟨body⟩)
      | _ => none

/-- Total form of `tokenOfKey`. -/
def tokenStrOf (k : Nat) : String := (tokenOfKey k).getD ""

/-- A benign key: it has a self-delimiting token, the chord parser maps
that token back to the key itself, the token is nonempty and free of
commas, and the key part lies strictly inside the valid range. -/
def goodKey (k : Nat) : Bool :=
  match tokenOfKey k with
  | none => false
  | some tok =>
      (qtParsePart tok == k) &&
      decide (',' ∉ tok.data) &&
      !(tok == "") &&
      decide (keySpace ≤ (splitKeyInfo k).key) &&
      decide ((splitKeyInfo k).key < keyUnknown)

/-- Concatenation of a list of strings. -/
def strConcat : List String → String
  | [] => ""
  | s :: rest => s ++ strConcat rest

/-- Decidable equality of parse results. -/
instance instDecEqExcept {ε α : Type} [DecidableEq ε] [DecidableEq α] :
    DecidableEq (Except ε α)
  | .error a, .error b =>
      if h : a = b then .isTrue (by rw [h])
      else .isFalse (fun hc => h (by cases hc; rfl))
  | .error _, .ok _ => .isFalse (fun hc => Except.noConfusion hc)
  | .ok _, .error _ => .isFalse (fun hc => Except.noConfusion hc)
  | .ok a, .ok b =>
      if h : a = b then .isTrue (by rw [h])
      else .isFalse (fun hc => h (by cases hc; rfl))

/-! ## General lemmas -/

/-- A printable key is nonzero. -/
theorem isPrintable_ne_zero {k : Nat} (h : isPrintable k = true) : k ≠ 0 := by
  intro hk
  simp [isPrintable, hk] at h

/-- A printable key is not the Backtab key. -/
theorem isPrintable_ne_backtab {k : Nat} (h : isPrintable k = true) :
    k ≠ keyBacktab := by
  intro hk
  simp [isPrintable, hk, keyBacktab] at h

/-- A chunk always exact-matches itself. -/
theorem qtChunkMatches_self (e : List Nat) : qtChunkMatches e e = .ExactMatch := by
  have hall : (e.zip e).all (fun p => p.1 == p.2) = true := by
    induction e with
    | nil => rfl
    | cons a l ih => simpa using ih
  simp [qtChunkMatches, hall]

/-- Pairing a chunk list with itself leaves no non-exact chunk. -/
theorem firstNonExact_map_self (l : List (List Nat)) :
    firstNonExact (l.map (fun a => (a, a))) = none := by
  induction l with
  | nil => rfl
  | cons a l ih => simp [firstNonExact, qtChunkMatches_self, ih]

/-- Zipping a chunk list with itself leaves no non-exact chunk. -/
theorem firstNonExact_self (l : List (List Nat)) :
    firstNonExact (l.zip l) = none := by
  have hz : l.zip l = l.map (fun a => (a, a)) := by
    induction l with
    | nil => rfl
    | cons a l ih => simp [List.zip_cons_cons, ih]
  rw [hz, firstNonExact_map_self]

/-- `matches` is unconditionally reflexive. -/
theorem matchesQ_self (s : KeySequence) :
    s.matchesQ s = some .ExactMatch := by
  simp [KeySequence.matchesQ, firstNonExact_self]

/-- The chunk loop returns the first mapped result failing the
exactness test. -/
theorem firstNonExact_eq_find (l : List (List Nat × List Nat)) :
    firstNonExact l =
      (l.map (fun p => qtChunkMatches p.1 p.2)).find?
        (fun m => decide (m ≠ MatchResult.ExactMatch)) := by
  induction l with
  | nil => rfl
  | cons p rest ih =>
      by_cases h : qtChunkMatches p.1 p.2 = MatchResult.ExactMatch
      · simp [firstNonExact, List.find?_cons, h, ih]
      · simp [firstNonExact, List.find?_cons, h]

/-! ## Claim theorems (first group) -/

/-- C1: `matches(E, C)` is `NoMatch` when `E` has strictly more chunks
than `C`; otherwise the aligned chunks are compared in order with the
per-chunk three-way match, the first non-exact chunk result is
returned, and if every compared chunk is exact the result is
`ExactMatch` on equal chunk counts and `PartialMatch` when `E` has
fewer chunks (in particular the internal unreachable branch is never
taken). -/
theorem c1_matches_follows_spec (E C : KeySequence) :
    E.matchesQ C = some (matchesSpecification E C) := by
  unfold KeySequence.matchesQ matchesSpecification
  by_cases hgt : E.sequences.length > C.sequences.length
  · simp [hgt]
  · rw [if_neg hgt, if_neg hgt, ← firstNonExact_eq_find]
    cases h : firstNonExact (E.sequences.zip C.sequences) with
    | some m => rfl
    | none =>
        by_cases heq : E.sequences.length = C.sequences.length
        · simp [heq]
        · have hlt : E.sequences.length < C.sequences.length := by omega
          simp [heq, hlt]

/-- C8: `matches` is reflexive — every non-empty `KeySequence` matches
itself with `ExactMatch`. -/
theorem c8_matches_reflexive (s : KeySequence) (_h : s.sequences ≠ []) :
    s.matchesQ s = some .ExactMatch :=
  matchesQ_self s

/-- Witness for C8 at the one-chord sequence `a`. -/
theorem c8_matches_reflexive_witness :
    KeySequence.matchesQ ⟨[[0x41]]⟩ ⟨[[0x41]]⟩ = some .ExactMatch :=
  c8_matches_reflexive ⟨[[0x41]]⟩ (by decide)

/-- C5: a nil key event makes `append_event` raise `KeyParseError` with
cause `Got nil key!`, and no extended sequence is produced (the pure
result is the error alone, so the receiver is unchanged). -/
theorem c5_nil_key_raises (s : KeySequence) (ev : KeyEvent) (h : ev.key = 0) :
    s.appendEvent ev = some (Except.error ⟨none, "Got nil key!"⟩) ∧
    ∀ t : KeySequence, s.appendEvent ev ≠ some (Except.ok t) := by
  refine ⟨by simp [KeySequence.appendEvent, h], ?_⟩
  intro t hc
  rw [show Keyutils.KeySequence.appendEvent s ev
        = some (Except.error ⟨none, "Got nil key!"⟩) from
      by simp [KeySequence.appendEvent, h]] at hc
  simp at hc

/-- Witness for C5 at a concrete sequence and nil-key event. -/
theorem c5_nil_key_raises_witness :
    KeySequence.appendEvent ⟨[[0x41]]⟩ ⟨0, 0, ""⟩ =
      some (Except.error ⟨none, "Got nil key!"⟩) ∧
    ∀ t : KeySequence,
      KeySequence.appendEvent ⟨[[0x41]]⟩ ⟨0, 0, ""⟩ ≠ some (Except.ok t) :=
  c5_nil_key_raises ⟨[[0x41]]⟩ ⟨0, 0, ""⟩ rfl

/-- C6: ending the input inside an unterminated `<...` bracket does not
raise: the recovery rule emits a literal `<` token followed by each
buffered character as its own single-key token, and concretely `<abc`
tokenizes to `<`, `a`, `b`, `c`. -/
theorem c6_unterminated_bracket_recovery :
    (∀ key : List Char, tokenizeAux [] key true =
      some ("<" :: key.map (fun c => parseSingleKey (String.singleton c)))) ∧
    tokenize "<abc" = some ["<", "a", "b", "c"] :=
  ⟨fun _ => rfl, by decide⟩

/-- C7: `parse("<Ctrl-Shift-x>")` succeeds with the single chord
Ctrl+Shift+X and renders back exactly to `<Ctrl+Shift+x>`. -/
theorem c7_ctrl_shift_x_roundtrip :
    parse "<Ctrl-Shift-x>" = some (Except.ok ⟨[[0x06000058]]⟩) ∧
    KeySequence.toStr ⟨[[0x06000058]]⟩ = some "<Ctrl+Shift+x>" := by
  decide

/-- C2 fails on the code: `<Shift+1>` parses to Shift+1, renders back
as the bare string `1`, and reparsing that yields a sequence which
gets `NoMatch` — not `ExactMatch` — against the original. -/
theorem c2_roundtrip_counterexample :
    parse "<Shift+1>" = some (Except.ok ⟨[[0x02000031]]⟩) ∧
    KeySequence.toStr ⟨[[0x02000031]]⟩ = some "1" ∧
    parse "1" = some (Except.ok ⟨[[0x31]]⟩) ∧
    KeySequence.matchesQ ⟨[[0x31]]⟩ ⟨[[0x02000031]]⟩ =
      some MatchResult.NoMatch := by
  decide

/-- C4 fails on the code: for the Shift+`;` event producing `:` the
Shift modifier is dropped (because `:` is not uppercase), not kept as
the claim states. -/
theorem c4_shift_colon_counterexample :
    KeySequence.appendEvent ⟨[]⟩ ⟨0x3b, shiftMod, ":"⟩ =
      some (Except.ok ⟨[[0x3b]]⟩) ∧
    KeySequence.appendEvent ⟨[]⟩ ⟨0x3b, shiftMod, ":"⟩ ≠
      some (Except.ok ⟨[[0x3b ||| shiftMod]]⟩) := by
  decide

/-- C4 (amended): the Shift+`;`/`:` event has Shift dropped (since `:`
is not uppercase), and the Shift+`2` event on a US layout (key At,
text `@`) likewise drops Shift, with the resulting `KeyInfo` rendering
as `@` rather than `<Shift+2>`. -/
theorem c4_shift_drop_amended :
    KeySequence.appendEvent ⟨[]⟩ ⟨0x3b, shiftMod, ":"⟩ =
      some (Except.ok ⟨[[0x3b]]⟩) ∧
    KeySequence.appendEvent ⟨[]⟩ ⟨0x40, shiftMod, "@"⟩ =
      some (Except.ok ⟨[[0x40]]⟩) ∧
    KeySequence.toStr ⟨[[0x40]]⟩ = some "@" ∧
    KeySequence.toStr ⟨[[0x40]]⟩ ≠ some "<Shift+2>" := by
  decide

/-- Mapping over an option preserves definedness. -/
theorem isSome_opt_map {α β : Type} (f : α → β) (o : Option α) :
    (Option.map f o).isSome = o.isSome := by
  cases o <;> rfl

/-- From any state whose buffer is empty whenever the scanner is not in
special mode, the tokenizer never hits the literal-`>` assertion. -/
theorem tokenizeAux_isSome :
    ∀ (cs key : List Char) (special : Bool),
      (special = false → key = []) → (tokenizeAux cs key special).isSome = true := by
  intro cs
  induction cs with
  | nil =>
      intro key special _
      cases special <;> simp [tokenizeAux]
  | cons c cs ih =>
      intro key special hinv
      cases special with
      | false =>
          have hk : key = [] := hinv rfl
          subst hk
          simp only [tokenizeAux, Bool.false_eq_true, if_false, if_true,
            List.nil_eq, if_pos rfl]
          split_ifs with h1 h2
          · rw [isSome_opt_map]
            exact ih [] false (fun _ => rfl)
          · exact ih [] true (fun h => absurd h (by simp))
          · rw [isSome_opt_map]
            exact ih [] false (fun _ => rfl)
      | true =>
          simp only [tokenizeAux, if_true]
          split_ifs with h1 h2
          · rw [isSome_opt_map]
            exact ih [] false (fun _ => rfl)
          · exact ih key true (fun h => absurd h (by simp))
          · exact ih (key ++ [c]) true (fun h => absurd h (by simp))

/-- C9: on every input string — not only well-formed ones — the
invariant that the buffer is empty outside special mode holds at every
scan step, so the assertion guarding the literal-`>` branch never fails
and the tokenizer always produces a token list. -/
theorem c9_greater_assert_never_fails (s : String) :
    (tokenize s).isSome = true :=
  tokenizeAux_isSome s.data [] false (fun _ => rfl)

/-- Shared helper: the Shift-drop branch of `append_event` for a
printable key with a Shift-only modifier and non-uppercase text. -/
theorem appendEvent_shift_dropped (s : KeySequence) (ev : KeyEvent)
    (hp : isPrintable ev.key = true) (hm : ev.modifiers = shiftMod)
    (ht : pyIsUpper ev.text = false) :
    s.appendEvent ev = KeySequence.init (s.flatKeys ++ [ev.key]) := by
  have hk0 : ¬(ev.key = 0) := isPrintable_ne_zero hp
  have hbt : ¬(ev.modifiers &&& shiftMod ≠ 0 ∧ ev.key = keyBacktab) :=
    fun h => isPrintable_ne_backtab hp h.2
  have hdrop : ev.modifiers = shiftMod ∧ isPrintable ev.key ∧
      ¬(pyIsUpper ev.text) := ⟨hm, by simp [hp], by simp [ht]⟩
  simp only [KeySequence.appendEvent, if_neg hk0, if_neg hbt, if_pos hdrop,
    Nat.or_zero]

/-- C10: a Shift-only modifier on a printable key whose produced text is
the empty string (not uppercase) has Shift dropped, yielding an
unshifted appended key. -/
theorem c10_shift_drop_empty_text (s : KeySequence) (ev : KeyEvent)
    (hp : isPrintable ev.key = true) (hm : ev.modifiers = shiftMod)
    (ht : ev.text = "") :
    s.appendEvent ev = KeySequence.init (s.flatKeys ++ [ev.key]) :=
  appendEvent_shift_dropped s ev hp hm (by rw [ht]; rfl)

/-- Witness for C10 at a Shift-only colon key delivering no text. -/
theorem c10_shift_drop_empty_text_witness :
    KeySequence.appendEvent ⟨[]⟩ ⟨0x3a, shiftMod, ""⟩ =
      KeySequence.init (KeySequence.flatKeys ⟨[]⟩ ++ [0x3a]) :=
  c10_shift_drop_empty_text ⟨[]⟩ ⟨0x3a, shiftMod, ""⟩ (by decide) rfl rfl

/-! ## Round-trip machinery -/

/-- String append acts as list append on the character data. -/
theorem string_data_append (a b : String) : (a ++ b).data = a.data ++ b.data := by
  cases a; cases b; rfl

/-- Rebuilding a string from its character data is the identity. -/
theorem string_mk_data (s : String) : (⟨s.data⟩ : String) = s := by
  cases s; rfl

/-- A string with nonempty character data is nonempty. -/
theorem string_ne_of_data_ne (s : String) (h : s ≠ "") : s.data ≠ [] := by
  intro hd
  exact h (by rw [← string_mk_data s, hd])

/-- Flattening the chunks recovers the accumulated and remaining
elements. -/
theorem chunkAcc_flatten {α : Type} (n : Nat) :
    ∀ (l acc : List α) (k : Nat),
      (chunkAcc n l acc k).flatten = acc.reverse ++ l := by
  intro l
  induction l with
  | nil =>
      intro acc k
      cases acc <;> simp [chunkAcc]
  | cons x xs ih =>
      intro acc k
      cases k with
      | zero => simp [chunkAcc, ih]
      | succ k => simp [chunkAcc, ih]

/-- Chunking commutes with mapping. -/
theorem chunkAcc_map {α β : Type} (f : α → β) (n : Nat) :
    ∀ (l acc : List α) (k : Nat),
      chunkAcc n (l.map f) (acc.map f) k = (chunkAcc n l acc k).map (List.map f) := by
  intro l
  induction l with
  | nil =>
      intro acc k
      cases acc <;> simp [chunkAcc]
  | cons x xs ih =>
      intro acc k
      cases k with
      | zero =>
          simp only [List.map_cons, chunkAcc]
          rw [show [f x] = [x].map f from rfl, ih]
          simp
      | succ k =>
          simp only [List.map_cons, chunkAcc]
          rw [show f x :: acc.map f = (x :: acc).map f from rfl, ih]

/-- Chunking a nonempty list (or a nonempty pending group) yields at
least one chunk. -/
theorem chunkAcc_ne_nil {α : Type} (n : Nat) :
    ∀ (l acc : List α) (k : Nat), l ≠ [] ∨ acc ≠ [] →
      chunkAcc n l acc k ≠ [] := by
  intro l
  induction l with
  | nil =>
      intro acc k h
      cases acc with
      | nil => rcases h with h | h <;> exact absurd rfl h
      | cons a as => simp [chunkAcc]
  | cons x xs ih =>
      intro acc k _
      cases k with
      | zero => simp [chunkAcc]
      | succ k =>
          simp only [chunkAcc]
          exact ih (x :: acc) k (Or.inr (by simp))

/-- Every produced chunk is nonempty, provided the pending group is
empty only when its capacity is still full. -/
theorem chunkAcc_mem_ne_nil {α : Type} (n : Nat) (hn : 0 < n) :
    ∀ (l acc : List α) (k : Nat), (acc = [] → k = n) →
      ∀ c ∈ chunkAcc n l acc k, c ≠ [] := by
  intro l
  induction l with
  | nil =>
      intro acc k _ c hc
      cases acc with
      | nil => simp [chunkAcc] at hc
      | cons a as =>
          simp [chunkAcc] at hc
          subst hc
          simp
  | cons x xs ih =>
      intro acc k hik c hc
      cases k with
      | zero =>
          have hacc : acc ≠ [] := by
            intro he
            exact absurd (hik he) (by omega)
          simp only [chunkAcc, List.mem_cons] at hc
          rcases hc with rfl | hc
          · simpa using hacc
          · exact ih [x] (n - 1) (fun h => absurd h (by simp)) c hc
      | succ k =>
          simp only [chunkAcc] at hc
          exact ih (x :: acc) k (fun h => absurd h (by simp)) c hc

/-- A plain character outside special mode emits its single-key token
and continues in the initial state. -/
theorem tokenizeAux_single (c : Char) (rest : List Char)
    (h1 : ¬c = '>') (h2 : ¬c = '<') :
    tokenizeAux (c :: rest) [] false =
      (tokenizeAux rest [] false).map
        (fun ts => parseSingleKey (String.singleton c) :: ts) := by
  simp [tokenizeAux, h1, h2]

/-- Scanning a clean bracket body in special mode accumulates it and
emits the normalized special token at the closing `>`. -/
theorem tokenizeAux_body (rest : List Char) :
    ∀ (body buf : List Char), (∀ c ∈ body, ¬c = '>' ∧ ¬c = '<') →
      tokenizeAux (body ++ '>' :: rest) buf true =
        (tokenizeAux rest [] false).map
          (fun ts => parseSpecialKey ⟨buf ++ body⟩ :: ts) := by
  intro body
  induction body with
  | nil => intro buf _; simp [tokenizeAux]
  | cons c body' ih =>
      intro buf hc
      have h1 : ¬c = '>' := (hc c (by simp)).1
      have h2 : ¬c = '<' := (hc c (by simp)).2
      have hstep : tokenizeAux ((c :: body') ++ '>' :: rest) buf true
          = tokenizeAux (body' ++ '>' :: rest) (buf ++ [c]) true := by
        simp [tokenizeAux, h1, h2]
      rw [hstep, ih (buf ++ [c]) (fun d hd => hc d (by simp [hd]))]
      simp

/-- A full clean `<...>` bracket from the initial state emits exactly
its normalized special token. -/
theorem tokenizeAux_bracket (body rest : List Char)
    (hc : ∀ c ∈ body, ¬c = '>' ∧ ¬c = '<') :
    tokenizeAux ('<' :: (body ++ '>' :: rest)) [] false =
      (tokenizeAux rest [] false).map
        (fun ts => parseSpecialKey ⟨body⟩ :: ts) := by
  have hstep : tokenizeAux ('<' :: (body ++ '>' :: rest)) [] false
      = tokenizeAux (body ++ '>' :: rest) [] true := by
    simp [tokenizeAux]
  rw [hstep, tokenizeAux_body rest body [] hc]
  simp

/-- Soundness of the bracket-body recognizer. -/
theorem bracketBody_spec :
    ∀ (cs body : List Char), bracketBody cs = some body →
      cs = body ++ ['>'] ∧ ∀ c ∈ body, ¬c = '>' ∧ ¬c = '<' := by
  intro cs
  induction cs with
  | nil => intro body h; simp [bracketBody] at h
  | cons c cs' ih =>
      intro body h
      by_cases h1 : c = '>'
      · subst h1
        rw [bracketBody, if_pos rfl] at h
        by_cases h2 : cs' = []
        · subst h2
          rw [if_pos rfl] at h
          obtain rfl : ([] : List Char) = body := Option.some.inj h
          exact ⟨rfl, by simp⟩
        · rw [if_neg h2] at h
          cases h
      · by_cases h2 : c = '<'
        · subst h2
          rw [bracketBody, if_neg h1, if_pos rfl] at h
          cases h
        · rw [bracketBody, if_neg h1, if_neg h2] at h
          rw [Option.map_eq_some'] at h
          obtain ⟨b', hb', rfl⟩ := h
          obtain ⟨hcs, hcln⟩ := ih b' hb'
          refine ⟨by rw [hcs]; rfl, ?_⟩
          intro d hd
          rcases List.mem_cons.mp hd with rfl | hd
          · exact ⟨h1, h2⟩
          · exact hcln d hd

/-- Unpacking of the benign-key predicate. -/
theorem goodKey_spec (k : Nat) (h : goodKey k = true) :
    renderKey k = some (renderStrOf k) ∧
    tokenOfKey k = some (tokenStrOf k) ∧
    qtParsePart (tokenStrOf k) = k ∧
    ',' ∉ (tokenStrOf k).data ∧
    tokenStrOf k ≠ "" ∧
    keySpace ≤ (splitKeyInfo k).key ∧ (splitKeyInfo k).key < keyUnknown := by
  unfold goodKey at h
  cases htok : tokenOfKey k with
  | none => rw [htok] at h; cases h
  | some tok =>
      rw [htok] at h
      simp only [Bool.and_eq_true, beq_iff_eq, Bool.not_eq_true',
        decide_eq_true_eq, beq_eq_false_iff_ne, ne_eq] at h
      obtain ⟨⟨⟨⟨hparse, hcomma⟩, hne⟩, hge⟩, hlt⟩ := h
      have htokstr : tokenStrOf k = tok := by simp [tokenStrOf, htok]
      have hrender : ∃ str, renderKey k = some str := by
        unfold tokenOfKey at htok
        cases hr : renderKey k with
        | none => rw [hr] at htok; cases htok
        | some str => exact ⟨str, rfl⟩
      obtain ⟨str, hr⟩ := hrender
      have hrs : renderStrOf k = str := by simp [renderStrOf, hr]
      subst htokstr
      subst hrs
      exact ⟨hr, rfl, hparse, hcomma, hne, hge, hlt⟩

/-- A benign key's rendering, placed in front of any remaining input,
tokenizes to its token followed by the tokens of the rest. -/
theorem tokenizeAux_goodKey (k : Nat) (h : goodKey k = true) (rest : List Char) :
    tokenizeAux ((renderStrOf k).data ++ rest) [] false =
      (tokenizeAux rest [] false).map (fun ts => tokenStrOf k :: ts) := by
  obtain ⟨hr, htok, -, -, -, -, -⟩ := goodKey_spec k h
  have htok' := htok
  unfold tokenOfKey at htok'
  split at htok'
  next heq => rw [hr] at heq; cases heq
  next str₀ heq =>
    rw [hr] at heq
    obtain rfl : str₀ = renderStrOf k := (Option.some.inj heq).symm
    split at htok'
    next c heqd =>
        rw [heqd]
        split at htok'
        · cases htok'
        next hang =>
            push_neg at hang
            rw [List.singleton_append, tokenizeAux_single c rest hang.2 hang.1,
              Option.some.inj htok']
    next rest₀ hne0 heqd =>
        clear hne0
        rw [Option.map_eq_some'] at htok'
        obtain ⟨body, hbody, htokval⟩ := htok'
        obtain ⟨hshape, hclean⟩ := bracketBody_spec rest₀ body hbody
        rw [heqd, hshape]
        have hassoc : ('<' :: (body ++ ['>'])) ++ rest = '<' :: (body ++ '>' :: rest) := by
          simp
        rw [hassoc, tokenizeAux_bracket body rest hclean, htokval]
    next =>
        cases htok'

/-- Joining the renderings of a list of benign keys. -/
theorem strJoinKeys_good (ks : List Nat) (h : ∀ k ∈ ks, goodKey k = true) :
    strJoinKeys ks = some (strConcat (ks.map renderStrOf)) := by
  induction ks with
  | nil => rfl
  | cons k ks ih =>
      have hk := goodKey_spec k (h k (by simp))
      simp only [strJoinKeys]
      rw [show (splitKeyInfo k).str = renderKey k from rfl, hk.1,
        ih (fun d hd => h d (by simp [hd]))]
      rfl

/-- Tokenizing the concatenated renderings of benign keys produces
exactly their tokens. -/
theorem tokenize_strConcat (ks : List Nat) (h : ∀ k ∈ ks, goodKey k = true) :
    tokenizeAux (strConcat (ks.map renderStrOf)).data [] false =
      some (ks.map tokenStrOf) := by
  induction ks with
  | nil => rfl
  | cons k ks ih =>
      have hd : (strConcat ((k :: ks).map renderStrOf)).data
          = (renderStrOf k).data ++ (strConcat (ks.map renderStrOf)).data := by
        simp only [List.map_cons, strConcat, string_data_append]
      rw [hd, tokenizeAux_goodKey k (h k (by simp)),
        ih (fun d hd => h d (by simp [hd]))]
      rfl

/-- Scanning a comma-free chord part consumes it whole. -/
theorem qtSplitChord_nocomma :
    ∀ (cs acc : List Char), (∀ c ∈ cs, ¬c = ',') →
      qtSplitChord cs acc = [acc.reverse ++ cs] := by
  intro cs
  induction cs with
  | nil => intro acc _; simp [qtSplitChord]
  | cons c cs' ih =>
      intro acc h
      cases cs' with
      | nil => simp [qtSplitChord]
      | cons c2 rest =>
          have hc : ¬c = ',' := h c (by simp)
          simp only [qtSplitChord]
          rw [if_neg (fun hand => hc hand.1)]
          rw [ih (c :: acc) (fun d hd => h d (by simp [hd]))]
          simp

/-- A comma-free part followed by the `, ` separator splits off as one
part. -/
theorem qtSplitChord_sep :
    ∀ (cs acc rest : List Char), (∀ c ∈ cs, ¬c = ',') →
      qtSplitChord (cs ++ ',' :: ' ' :: rest) acc =
        (acc.reverse ++ cs) :: qtSplitChord rest [] := by
  intro cs
  induction cs with
  | nil =>
      intro acc rest _
      simp [qtSplitChord]
  | cons c cs' ih =>
      intro acc rest h
      have hc : ¬c = ',' := h c (by simp)
      cases cs' with
      | nil =>
          have hl : (([c] : List Char)) ++ ',' :: ' ' :: rest
              = c :: ',' :: ' ' :: rest := rfl
          rw [hl]
          simp only [qtSplitChord]
          rw [if_neg (fun hand => hc hand.1)]
          simp [qtSplitChord]
      | cons c2 cs'' =>
          have hl : ((c :: c2 :: cs'' : List Char)) ++ ',' :: ' ' :: rest
              = c :: c2 :: (cs'' ++ ',' :: ' ' :: rest) := by simp
          rw [hl]
          simp only [qtSplitChord]
          rw [if_neg (fun hand => hc hand.1)]
          have hrec := ih (c :: acc) rest (fun d hd => h d (by simp [hd]))
          have hl2 : ((c2 :: cs'' : List Char)) ++ ',' :: ' ' :: rest
              = c2 :: (cs'' ++ ',' :: ' ' :: rest) := by simp
          rw [hl2] at hrec
          rw [hrec]
          simp

/-- Splitting the `, `-join of comma-free parts recovers the parts. -/
theorem split_joinCS :
    ∀ (parts : List String), parts ≠ [] →
      (∀ p ∈ parts, ∀ c ∈ p.data, ¬c = ',') →
      qtSplitChord (joinCS parts).data [] = parts.map String.data := by
  intro parts
  induction parts with
  | nil => intro h _; cases h rfl
  | cons p rest ih =>
      intro _ hcl
      cases rest with
      | nil =>
          simp only [joinCS, List.map]
          rw [qtSplitChord_nocomma p.data [] (hcl p (by simp))]
          simp
      | cons q rest' =>
          simp only [joinCS]
          have hd : (p ++ ", " ++ joinCS (q :: rest')).data
              = p.data ++ ',' :: ' ' :: (joinCS (q :: rest')).data := by
            rw [string_data_append, string_data_append, List.append_assoc]
            rfl
          rw [hd, qtSplitChord_sep p.data [] _ (hcl p (by simp))]
          rw [ih (by simp) (fun r hr => hcl r (by simp [hr]))]
          simp

/-- The chord-string constructor on a nonempty string splits and parses
each part. -/
theorem qtFromString_of_ne_nil (s : String) (h : s.data ≠ []) :
    qtFromString s = (qtSplitChord s.data []).map (fun p => qtParsePart ⟨p⟩) := by
  unfold qtFromString
  split
  next heq => exact absurd heq h
  next => rfl

/-- Parsing back the `, `-joined tokens of a nonempty benign chunk
recovers the chunk. -/
theorem qtFromString_chunk (kc : List Nat) (hne : kc ≠ [])
    (h : ∀ k ∈ kc, goodKey k = true) :
    qtFromString (joinCS (kc.map tokenStrOf)) = kc := by
  cases kc with
  | nil => exact absurd rfl hne
  | cons k0 krest =>
      have hg0 := goodKey_spec k0 (h k0 (by simp))
      have htok0ne : (tokenStrOf k0).data ≠ [] :=
        string_ne_of_data_ne _ hg0.2.2.2.2.1
      have hjoin : ∃ t, (joinCS ((k0 :: krest).map tokenStrOf)).data
          = (tokenStrOf k0).data ++ t := by
        cases krest with
        | nil => exact ⟨[], by simp [joinCS]⟩
        | cons k1 kr =>
            refine ⟨(", " ++ joinCS ((k1 :: kr).map tokenStrOf)).data, ?_⟩
            simp only [List.map_cons, joinCS, string_data_append,
              List.append_assoc]
      obtain ⟨t, ht⟩ := hjoin
      have hnonnil : (joinCS ((k0 :: krest).map tokenStrOf)).data ≠ [] := by
        rw [ht]
        intro hnil
        exact htok0ne (List.append_eq_nil.mp hnil).1
      rw [qtFromString_of_ne_nil _ hnonnil]
      rw [split_joinCS ((k0 :: krest).map tokenStrOf) (by simp)
        (by
          intro p hp c hcp hceq
          obtain ⟨k', hk', rfl⟩ := List.mem_map.mp hp
          subst hceq
          exact (goodKey_spec k' (h k' hk')).2.2.2.1 hcp)]
      rw [List.map_map, List.map_map]
      have hcong : ∀ k' ∈ (k0 :: krest),
          (((fun p => qtParsePart ⟨p⟩) ∘ String.data) ∘ tokenStrOf) k' = id k' := by
        intro k' hk'
        simp only [Function.comp_apply, id]
        rw [string_mk_data]
        exact (goodKey_spec k' (h k' hk')).2.2.1
      rw [List.map_congr_left hcong, List.map_id]

/-- The per-key validation loop succeeds on in-range, non-unknown
keys. -/
theorem checkInfoList_ok (keystr : Option String) :
    ∀ ks : List Nat,
      (∀ k ∈ ks, keySpace ≤ (splitKeyInfo k).key ∧
        (splitKeyInfo k).key < keyUnknown) →
      checkInfoList keystr ks = .ok := by
  intro ks
  induction ks with
  | nil => intro _; rfl
  | cons k ks ih =>
      intro h
      have hk := h k (by simp)
      simp only [checkInfoList]
      rw [if_neg (not_not_intro ⟨hk.1, Nat.le_of_lt hk.2⟩),
        if_neg (Nat.ne_of_lt hk.2)]
      exact ih (fun d hd => h d (by simp [hd]))

/-- Validation succeeds when all keys are in range and all chunks are
nonempty. -/
theorem validateSeqs_ok (seqs : List (List Nat)) (keystr : Option String)
    (hk : ∀ k ∈ seqs.flatten, keySpace ≤ (splitKeyInfo k).key ∧
      (splitKeyInfo k).key < keyUnknown)
    (hne : ∀ c ∈ seqs, c ≠ []) :
    validateSeqs seqs keystr = .ok := by
  unfold validateSeqs
  rw [checkInfoList_ok keystr seqs.flatten hk]
  rw [if_pos ?_]
  simp only [List.all_eq_true, Bool.not_eq_true']
  intro c hc
  simpa [List.isEmpty_iff] using hne c hc

/-- C2 (amended): for every `KeySequence` built from benign keys — keys
whose rendering is a single self-delimiting token reparsing to the same
combined integer, which covers letters with or without Shift, bare
digits and symbols, Ctrl/Alt/Meta chords on letters and the named
special keys, but not chords such as `<Shift+1>` whose rendering loses
the modifier — `parse(str(s))` reproduces the sequence exactly and
matches it with `ExactMatch`. -/
theorem c2_roundtrip_amended (ks : List Nat) (h1 : ks ≠ [])
    (h2 : ∀ k ∈ ks, goodKey k = true) :
    KeySequence.init ks = some (Except.ok ⟨chunkList 4 ks⟩) ∧
    KeySequence.toStr ⟨chunkList 4 ks⟩ =
      some (strConcat (ks.map renderStrOf)) ∧
    parse (strConcat (ks.map renderStrOf)) =
      some (Except.ok ⟨chunkList 4 ks⟩) ∧
    KeySequence.matchesQ ⟨chunkList 4 ks⟩ ⟨chunkList 4 ks⟩ =
      some MatchResult.ExactMatch := by
  have hflat : (chunkList 4 ks).flatten = ks := by
    unfold chunkList
    rw [chunkAcc_flatten]
    rfl
  have hmemflat : ∀ k ∈ (chunkList 4 ks).flatten, goodKey k = true := by
    rw [hflat]; exact h2
  have hrange : ∀ k ∈ (chunkList 4 ks).flatten,
      keySpace ≤ (splitKeyInfo k).key ∧ (splitKeyInfo k).key < keyUnknown :=
    fun k hk => (goodKey_spec k (hmemflat k hk)).2.2.2.2.2
  have hchne : ∀ c ∈ chunkList 4 ks, c ≠ [] :=
    chunkAcc_mem_ne_nil 4 (by omega) ks [] 4 (fun _ => rfl)
  have hSne : chunkList 4 ks ≠ [] := chunkAcc_ne_nil 4 ks [] 4 (Or.inl h1)
  refine ⟨?_, ?_, ?_, matchesQ_self _⟩
  · unfold KeySequence.init
    rw [if_neg (fun hand => hSne hand.2),
      validateSeqs_ok (chunkList 4 ks) none hrange hchne]
  · show strJoinKeys (chunkList 4 ks).flatten = _
    rw [hflat]
    exact strJoinKeys_good ks h2
  · have htoks : tokenize (strConcat (ks.map renderStrOf))
        = some (ks.map tokenStrOf) := tokenize_strConcat ks h2
    have hchunkmap : chunkList 4 (ks.map tokenStrOf)
        = (chunkList 4 ks).map (List.map tokenStrOf) :=
      chunkAcc_map tokenStrOf 4 ks [] 4
    have hseqs : (chunkList 4 (ks.map tokenStrOf)).map
        (fun sub => qtFromString (joinCS sub)) = chunkList 4 ks := by
      rw [hchunkmap, List.map_map]
      have hcong : ∀ kc ∈ chunkList 4 ks,
          ((fun sub => qtFromString (joinCS sub)) ∘ List.map tokenStrOf) kc
            = id kc := by
        intro kc hkc
        simp only [Function.comp_apply, id]
        refine qtFromString_chunk kc (hchne kc hkc) ?_
        intro k hk
        exact hmemflat k (List.mem_flatten.mpr ⟨kc, hkc, hk⟩)
      rw [List.map_congr_left hcong, List.map_id]
    simp only [parse, htoks, hseqs]
    rw [if_neg (fun hand => hSne hand.2),
      validateSeqs_ok (chunkList 4 ks) (some _) hrange hchne]

/-- Witness for the amended C2 at the six-key sequence
a, Shift+A, 1, Ctrl+X, Escape, `:` (chunked 4 + 2). -/
theorem c2_roundtrip_amended_witness :
    KeySequence.init [0x41, 0x02000041, 0x31, 0x04000058, 0x01000000, 0x3a] =
      some (Except.ok ⟨chunkList 4
        [0x41, 0x02000041, 0x31, 0x04000058, 0x01000000, 0x3a]⟩) ∧
    KeySequence.toStr ⟨chunkList 4
        [0x41, 0x02000041, 0x31, 0x04000058, 0x01000000, 0x3a]⟩ =
      some (strConcat ([0x41, 0x02000041, 0x31, 0x04000058, 0x01000000,
        0x3a].map renderStrOf)) ∧
    parse (strConcat ([0x41, 0x02000041, 0x31, 0x04000058, 0x01000000,
        0x3a].map renderStrOf)) =
      some (Except.ok ⟨chunkList 4
        [0x41, 0x02000041, 0x31, 0x04000058, 0x01000000, 0x3a]⟩) ∧
    KeySequence.matchesQ
        ⟨chunkList 4 [0x41, 0x02000041, 0x31, 0x04000058, 0x01000000, 0x3a]⟩
        ⟨chunkList 4 [0x41, 0x02000041, 0x31, 0x04000058, 0x01000000, 0x3a]⟩ =
      some MatchResult.ExactMatch :=
  c2_roundtrip_amended
    [0x41, 0x02000041, 0x31, 0x04000058, 0x01000000, 0x3a]
    (by decide) (by decide)

end Keyutils
